import Mathlib

/-!
Shallow embedding of the FMRI-Preprocessing denoising pipeline.

Sources embedded:
* src/Denoising/denoise_fmri.py — class FMRIDenoiser (the canonical,
  class-based pipeline): __init__ normalisation of confound_columns,
  _get_tr_from_nifti, _prepare_confounds, _write_json_sidecar, run, and
  the argparse defaults of main.
* src/fmri_denoising.py — denoise_voxelwise_nifti (the legacy functional
  variant): its default-confound construction including the synthetic
  custom_spike regressors.

Conventions of the embedding:
* Python floats are modelled as rationals (ℚ).
* The confound table (the pandas DataFrame read from the TSV after
  fillna(0)) is a row count together with an ordered association list of
  named columns; `getCol` models `df[name]`, and the design matrix
  `df[cols].values` is represented column-major as `cols.map (getCol t)`.
* Console prints and file writes are modelled as explicit events, so
  that the occurrence and relative order of effects can be stated.
* `sys.exit(1)` together with the printed explanation is modelled as an
  `Except.error` carrying the exit status and the instruction message.
-/

/-- A named column of the confound table: column name and its values. -/
abbrev Column := String × List ℚ

/-- The confound table: `pd.read_csv(confounds_path, sep='\t').fillna(0)`.
`nrows` models `len(confounds_df)`. -/
structure ConfoundTable where
  nrows : Nat
  cols : List Column

deriving instance DecidableEq for ConfoundTable

/-- `confounds_df.columns`, in table order. -/
def tableColumns (t : ConfoundTable) : List String := t.cols.map Prod.fst

/-- `confounds_df[name]`: the values of the (first) column named `name`. -/
def getCol (t : ConfoundTable) (name : String) : List ℚ :=
  ((t.cols.find? (fun p => p.1 == name)).map Prod.snd).getD []

/-- Does `pat` occur as a contiguous run inside the second list? -/
def isSubChars (pat : List Char) : List Char → Bool
  | [] => pat.isEmpty
  | c :: rest => pat.isPrefixOf (c :: rest) || isSubChars pat rest

/-- Substring test: models the Python expression `pat in s` on strings. -/
def containsSub (s pat : String) : Bool := isSubChars pat.toList s.toList

/-- The fixed default motion/physiological regressor names (`default_cols`
in _prepare_confounds, and the initial `confound_columns` of
denoise_voxelwise_nifti). -/
def defaultCols : List String :=
  ["trans_x", "trans_y", "trans_z", "rot_x", "rot_y", "rot_z", "white_matter", "csf"]

/-- The record serialised by _write_json_sidecar (the value under the
"Denoised" key of the JSON document). -/
structure SidecarRecord where
  confoundsFile : String
  repetitionTime : Option ℚ
  confoundColumns : Option (List String)
  lowPassHz : Option ℚ
  highPassHz : Option ℚ
  globalSignalRegression : Bool

deriving instance DecidableEq for SidecarRecord

/-- Observable events of the pipeline: console prints and the design
matrix construction `confounds_df[final_columns].values`. -/
inductive Event where
  | print (s : String)
  | buildMatrix (m : List (List ℚ))

deriving instance DecidableEq for Event

/-- File outputs of a run: the cleaned NIfTI, or a JSON sidecar. -/
inductive FileWrite where
  | nifti (path : String)
  | sidecar (path : String) (record : SidecarRecord)

deriving instance DecidableEq for FileWrite

/-- Python `s.split(',')` on the character list of `s`. -/
def splitOnComma : List Char → List (List Char)
  | [] => [[]]
  | c :: rest =>
    match splitOnComma rest with
    | [] => [[]]
    | g :: gs => if c = ',' then [] :: g :: gs else (c :: g) :: gs

/-- Python `s.strip()`: drop leading and trailing whitespace. -/
def stripChars (l : List Char) : List Char :=
  ((l.dropWhile Char.isWhitespace).reverse.dropWhile Char.isWhitespace).reverse

/-- The normalisation in FMRIDenoiser.__init__ for a string argument:
`[c.strip() for c in confound_columns.split(',') if c.strip()]`. -/
def parseColumns (s : String) : List String :=
  ((splitOnComma s.toList).map (fun g => String.mk (stripChars g))).filter
    (fun c => !(c == ""))

/-- The `confound_columns` argument of FMRIDenoiser.__init__: Python
allows None, a comma-separated string, or a list of names. -/
inductive ConfoundArg where
  | noneArg
  | strArg (s : String)
  | listArg (l : List String)

/-- The normalisation performed at the top of FMRIDenoiser.__init__. -/
def normalizeArg : ConfoundArg → Option (List String)
  | ConfoundArg.noneArg => Option.none
  | ConfoundArg.strArg s => some (parseColumns s)
  | ConfoundArg.listArg l => some l

/-- The attributes of an FMRIDenoiser instance after __init__. -/
structure FMRIDenoiser where
  niftiPath : String
  confoundsPath : String
  outputPath : String
  confoundColumns : Option (List String)
  lowPass : Option ℚ
  highPass : Option ℚ
  tR : Option ℚ
  useGsr : Bool

/-- FMRIDenoiser.__init__ with all arguments given explicitly. -/
def FMRIDenoiser.init (niftiPath confoundsPath outputPath : String)
    (confoundColumns : ConfoundArg) (lowPass highPass : Option ℚ)
    (tR : Option ℚ) (useGsr : Bool) : FMRIDenoiser :=
  { niftiPath := niftiPath, confoundsPath := confoundsPath,
    outputPath := outputPath,
    confoundColumns := normalizeArg confoundColumns,
    lowPass := lowPass, highPass := highPass, tR := tR, useGsr := useGsr }

/-- Default of the `low_pass` parameter of FMRIDenoiser.__init__
(`low_pass=0.1`). -/
def initDefaultLowPass : Option ℚ := some (1/10)

/-- Default of the `high_pass` parameter of FMRIDenoiser.__init__
(`high_pass=0.01`). -/
def initDefaultHighPass : Option ℚ := some (1/100)

/-- Default of the `--low_pass` command-line option in main
(argparse `default=0.1`). -/
def mainDefaultLowPass : ℚ := 1/10

/-- Default of the `--high_pass` command-line option in main
(argparse `default=0.01`). -/
def mainDefaultHighPass : ℚ := 1/100

/-- Default of the `low_pass` parameter of denoise_voxelwise_nifti
(`low_pass=0.1`). -/
def legacyDefaultLowPass : Option ℚ := some (1/10)

/-- Default of the `high_pass` parameter of denoise_voxelwise_nifti
(`high_pass=0.01`). -/
def legacyDefaultHighPass : Option ℚ := some (1/100)

/-- The NIfTI image as far as the pipeline inspects it: the header
pixdim array (`img_obj.header['pixdim']`). -/
structure NiftiImage where
  pixdim : List ℚ

/-- A fatal TR-resolution failure: `sys.exit(1)` after the printed
explanation. -/
structure TrError where
  exitCode : Nat
  message : String

deriving instance DecidableEq for TrError

/-- The error produced by _get_tr_from_nifti on a missing, zero or
negative header TR: exit status 1 and the actionable instruction. -/
def trFatal : TrError :=
  { exitCode := 1,
    message := "Please specify the TR manually using the --t_r <value> flag." }

/-- FMRIDenoiser._get_tr_from_nifti: read `header['pixdim'][4]`
(IndexError on a missing element is caught together with the ValueError
raised for a non-positive value, both ending in `sys.exit(1)`). -/
def FMRIDenoiser.getTrFromNifti (img : NiftiImage) : Except TrError ℚ :=
  match img.pixdim[4]? with
  | Option.none => Except.error trFatal
  | some tr => if 0 < tr then Except.ok tr else Except.error trFatal

/-- The TR resolution step of FMRIDenoiser.run (lines 104-108):
`if self.t_r is None: self.t_r = self._get_tr_from_nifti(img)`; any
user-supplied value is used verbatim. -/
def resolveTR (userTr : Option ℚ) (img : NiftiImage) : Except TrError ℚ :=
  match userTr with
  | Option.none => FMRIDenoiser.getTrFromNifti img
  | some u => Except.ok u

/-- The confound-list construction of _prepare_confounds before the
final presence filter: returns the value of `self.confound_columns`
after the branch, together with the prints the branch emits. -/
def buildConfoundColumns (tableCols : List String)
    (explicit : Option (List String)) (useGsr : Bool) :
    List String × List Event :=
  match explicit with
  | some l => (l, [])
  | Option.none =>
    let base := defaultCols.filter (fun c => decide (c ∈ tableCols))
    let spikes := tableCols.filter (fun c => containsSub c "motion_outlier")
    let step :=
      if spikes.isEmpty then
        (base, [Event.print "No motion_outlier columns found."])
      else
        (base ++ spikes,
         [Event.print "Found motion outlier regressors from fMRIPrep."])
    if useGsr && decide ("global_signal" ∈ tableCols) then
      (step.1 ++ ["global_signal"],
       step.2 ++ [Event.print "Including Global Signal Regression (GSR)."])
    else step

/-- `final_columns` of _prepare_confounds: the constructed list
restricted to names present in the table. -/
def selectConfounds (tableCols : List String)
    (explicit : Option (List String)) (useGsr : Bool) : List String :=
  (buildConfoundColumns tableCols explicit useGsr).1.filter
    (fun c => decide (c ∈ tableCols))

/-- The state _prepare_confounds leaves behind: its event trace, the
mutated `self.confound_columns`, `final_columns`, and the design matrix
(column-major). -/
structure PrepResult where
  trace : List Event
  storedColumns : List String
  finalColumns : List String
  matrix : List (List ℚ)

/-- The report line printed before the per-name listing and before the
design matrix is built. -/
def reportHeader : Event :=
  Event.print "Final list of confound regressors to be used:"

/-- FMRIDenoiser._prepare_confounds. -/
def prepareConfounds (t : ConfoundTable) (explicit : Option (List String))
    (useGsr : Bool) : PrepResult :=
  let tc := tableColumns t
  let bc := buildConfoundColumns tc explicit useGsr
  let final := bc.1.filter (fun c => decide (c ∈ tc))
  let matrix := final.map (fun c => getCol t c)
  { trace := [Event.print "Loading and preparing confounds..."] ++ bc.2
      ++ [reportHeader]
      ++ final.map (fun n => Event.print ("  - " ++ n))
      ++ [Event.buildMatrix matrix],
    storedColumns := bc.1,
    finalColumns := final,
    matrix := matrix }

/-- The result of a successful FMRIDenoiser.run. -/
structure RunOutcome where
  usedTr : ℚ
  prep : PrepResult
  lowPass : Option ℚ
  highPass : Option ℚ
  writes : List FileWrite

/-- FMRIDenoiser.run: resolve the TR, prepare the confounds, call
clean_img with the instance's cutoffs, and save the cleaned NIfTI.
The method performs exactly one file write — `cleaned_img.to_filename`
— and never calls _write_json_sidecar. -/
def FMRIDenoiser.run (self : FMRIDenoiser) (img : NiftiImage)
    (t : ConfoundTable) : Except TrError RunOutcome :=
  match resolveTR self.tR img with
  | Except.error e => Except.error e
  | Except.ok tr =>
    let p := prepareConfounds t self.confoundColumns self.useGsr
    Except.ok { usedTr := tr, prep := p, lowPass := self.lowPass,
                highPass := self.highPass,
                writes := [FileWrite.nifti self.outputPath] }

/-- The file writes performed by a run (none when the run exits early). -/
def runWrites (self : FMRIDenoiser) (img : NiftiImage)
    (t : ConfoundTable) : List FileWrite :=
  match self.run img t with
  | Except.ok o => o.writes
  | Except.error _ => []

/-- os.path.basename for POSIX paths: the part after the last slash. -/
def basename (p : String) : String :=
  String.mk ((p.toList.reverse.takeWhile (fun c => !(c == '/'))).reverse)

/-- Python `str.rfind` on a character list: last index, -1 if absent. -/
def lastIndexOfChar (l : List Char) (c : Char) : Int :=
  match l.reverse.findIdx? (fun d => d == c) with
  | Option.none => -1
  | some j => (l.length : Int) - 1 - (j : Int)

/-- os.path.splitext (POSIX), root part: split off the last extension of
the final path component, where leading dots of the component do not
start an extension. -/
def splitextRoot (p : String) : String :=
  let l := p.toList
  let sepI := lastIndexOfChar l '/'
  let dotI := lastIndexOfChar l '.'
  if dotI > sepI then
    let body := (l.drop (sepI + 1).toNat).take (dotI - sepI - 1).toNat
    if body.any (fun c => !(c == '.')) then String.mk (l.take dotI.toNat)
    else p
  else p

/-- FMRIDenoiser._write_json_sidecar: the sidecar write the method
performs when invoked.  (FMRIDenoiser.run never invokes it.) -/
def FMRIDenoiser.writeJsonSidecar (self : FMRIDenoiser) : FileWrite :=
  FileWrite.sidecar (splitextRoot self.outputPath ++ ".json")
    { confoundsFile := basename self.confoundsPath,
      repetitionTime := self.tR,
      confoundColumns := self.confoundColumns,
      lowPassHz := self.lowPass,
      highPassHz := self.highPass,
      globalSignalRegression := self.useGsr }

/-- The hardcoded spike timepoints of denoise_voxelwise_nifti. -/
def spikeIndices : List Nat := [45, 46, 51, 86, 87, 108, 109, 153]

/-- The name `f'custom_spike_{i}'`. -/
def spikeName (i : Nat) : String := "custom_spike_" ++ toString i

/-- `reg = np.zeros(n); if i < n: reg[i] = 1`. -/
def spikeRegressor (n i : Nat) : List ℚ :=
  (List.range n).map (fun j => if j = i then 1 else 0)

/-- `confounds_df[name] = v`: replace the column if present, otherwise
append it at the end. -/
def setColumn (t : ConfoundTable) (name : String) (v : List ℚ) :
    ConfoundTable :=
  if name ∈ tableColumns t then
    { t with cols := t.cols.map (fun p => if p.1 = name then (name, v) else p) }
  else
    { t with cols := t.cols ++ [(name, v)] }

/-- The spike-injection loop of denoise_voxelwise_nifti:
`for i in spike_indices: confounds_df[f'custom_spike_{i}'] = reg`. -/
def foldSpikes (idxs : List Nat) (t : ConfoundTable) : ConfoundTable :=
  idxs.foldl (fun acc i => setColumn acc (spikeName i) (spikeRegressor acc.nrows i)) t

/-- The spike part of the legacy default branch: use the table's
motion_outlier columns when any exist, otherwise add the synthetic
custom_spike columns to the table; paired with the confound names
accumulated so far (the unfiltered defaults first). -/
def legacySpikeStep (t : ConfoundTable) : ConfoundTable × List String :=
  let spikes := (tableColumns t).filter (fun c => containsSub c "motion_outlier")
  if spikes.isEmpty then
    (foldSpikes spikeIndices t, defaultCols ++ spikeIndices.map spikeName)
  else (t, defaultCols ++ spikes)

/-- The confound-construction part of denoise_voxelwise_nifti
(src/fmri_denoising.py): with no explicit list, the unfiltered default
names, then the spike step, then the optional global signal.  Returns
the (possibly augmented) table and the final `confound_columns`
list. -/
def legacyPrepare (t : ConfoundTable) (explicit : Option (List String))
    (useGsr : Bool) : ConfoundTable × List String :=
  match explicit with
  | some l => (t, l)
  | Option.none =>
    let step := legacySpikeStep t
    if useGsr && decide ("global_signal" ∈ tableColumns step.1) then
      (step.1, step.2 ++ ["global_signal"])
    else step


/-! ### Helper lemmas about list search and column updates -/

theorem find?_append_of_none {α : Type} {l₁ l₂ : List α} {q : α → Bool}
    (h : l₁.find? q = Option.none) : (l₁ ++ l₂).find? q = l₂.find? q := by
  induction l₁ with
  | nil => rfl
  | cons a l ih =>
    by_cases hq : q a
    · rw [List.find?_cons_of_pos _ hq] at h
      cases h
    · rw [List.find?_cons_of_neg _ hq] at h
      rw [List.cons_append, List.find?_cons_of_neg _ hq]
      exact ih h

theorem find?_append_of_some {α : Type} {l₁ l₂ : List α} {q : α → Bool} {x : α}
    (h : l₁.find? q = some x) : (l₁ ++ l₂).find? q = some x := by
  induction l₁ with
  | nil => cases h
  | cons a l ih =>
    by_cases hq : q a
    · rw [List.find?_cons_of_pos _ hq] at h
      rw [List.cons_append, List.find?_cons_of_pos _ hq]
      exact h
    · rw [List.find?_cons_of_neg _ hq] at h
      rw [List.cons_append, List.find?_cons_of_neg _ hq]
      exact ih h

theorem find?_fst_eq_none (l : List Column) (n : String)
    (h : ¬ n ∈ l.map Prod.fst) : l.find? (fun p => p.1 == n) = Option.none := by
  induction l with
  | nil => rfl
  | cons a l ih =>
    simp only [List.map_cons, List.mem_cons, not_or] at h
    rw [List.find?_cons_of_neg _ (by simpa using fun he => h.1 he.symm)]
    exact ih h.2

theorem find?_map_setEq (l : List Column) (n : String) (v : List ℚ)
    (h : n ∈ l.map Prod.fst) :
    (l.map (fun p => if p.1 = n then (n, v) else p)).find? (fun p => p.1 == n)
      = some (n, v) := by
  induction l with
  | nil => simp at h
  | cons a l ih =>
    by_cases ha : a.1 = n
    · simp only [List.map_cons, if_pos ha]
      rw [List.find?_cons_of_pos _ (by simp)]
    · simp only [List.map_cons, List.mem_cons, ha] at h
      have h' : n ∈ l.map Prod.fst := by
        rcases h with h | h
        · exact absurd h.symm ha
        · exact h
      simp only [List.map_cons, if_neg ha]
      rw [List.find?_cons_of_neg _ (by simpa using ha)]
      exact ih h'

theorem find?_map_setNe (l : List Column) (n : String) (v : List ℚ)
    (n' : String) (hne : n' ≠ n) :
    (l.map (fun p => if p.1 = n then (n, v) else p)).find? (fun p => p.1 == n')
      = l.find? (fun p => p.1 == n') := by
  induction l with
  | nil => rfl
  | cons a l ih =>
    by_cases ha : a.1 = n
    · simp only [List.map_cons, if_pos ha]
      rw [List.find?_cons_of_neg _ (by simpa using fun he : n = n' => hne he.symm),
        List.find?_cons_of_neg _ (by simp [ha]; exact fun he => hne he.symm)]
      exact ih
    · simp only [List.map_cons, if_neg ha]
      by_cases ha' : a.1 = n'
      · rw [List.find?_cons_of_pos _ (by simpa using ha'),
          List.find?_cons_of_pos _ (by simpa using ha')]
      · rw [List.find?_cons_of_neg _ (by simpa using ha'),
          List.find?_cons_of_neg _ (by simpa using ha')]
        exact ih

theorem getCol_setColumn_self (t : ConfoundTable) (n : String) (v : List ℚ) :
    getCol (setColumn t n v) n = v := by
  by_cases h : n ∈ tableColumns t
  · simp only [setColumn, if_pos h, getCol]
    rw [find?_map_setEq _ _ _ (by simpa [tableColumns] using h)]
    rfl
  · simp only [setColumn, if_neg h, getCol]
    rw [find?_append_of_none (find?_fst_eq_none _ _ (by simpa [tableColumns] using h))]
    rw [List.find?_cons_of_pos _ (by simp)]
    rfl

theorem getCol_setColumn_ne (t : ConfoundTable) (n : String) (v : List ℚ)
    (n' : String) (hne : n' ≠ n) :
    getCol (setColumn t n v) n' = getCol t n' := by
  by_cases h : n ∈ tableColumns t
  · simp only [setColumn, if_pos h, getCol]
    rw [find?_map_setNe _ _ _ _ hne]
  · simp only [setColumn, if_neg h, getCol]
    cases hfind : t.cols.find? (fun p => p.1 == n') with
    | none =>
      rw [find?_append_of_none hfind,
        List.find?_cons_of_neg _ (by simpa using fun he : n = n' => hne he.symm)]
      rfl
    | some x => rw [find?_append_of_some hfind]

theorem setColumn_nrows (t : ConfoundTable) (n : String) (v : List ℚ) :
    (setColumn t n v).nrows = t.nrows := by
  simp only [setColumn]
  split <;> rfl

theorem foldSpikes_cons (a : Nat) (l : List Nat) (t : ConfoundTable) :
    foldSpikes (a :: l) t
      = foldSpikes l (setColumn t (spikeName a) (spikeRegressor t.nrows a)) := rfl

theorem foldSpikes_nrows (idxs : List Nat) (t : ConfoundTable) :
    (foldSpikes idxs t).nrows = t.nrows := by
  induction idxs generalizing t with
  | nil => rfl
  | cons a l ih => rw [foldSpikes_cons, ih, setColumn_nrows]

theorem getCol_foldSpikes_of_not_mem (idxs : List Nat) (t : ConfoundTable)
    (n : String) (h : ¬ n ∈ idxs.map spikeName) :
    getCol (foldSpikes idxs t) n = getCol t n := by
  induction idxs generalizing t with
  | nil => rfl
  | cons a l ih =>
    simp only [List.map_cons, List.mem_cons, not_or] at h
    rw [foldSpikes_cons, ih _ h.2, getCol_setColumn_ne _ _ _ _ h.1]

theorem getCol_foldSpikes_of_mem (idxs : List Nat)
    (hnd : (idxs.map spikeName).Nodup) (t : ConfoundTable) (i : Nat)
    (hi : i ∈ idxs) :
    getCol (foldSpikes idxs t) (spikeName i) = spikeRegressor t.nrows i := by
  induction idxs generalizing t with
  | nil => cases hi
  | cons a l ih =>
    simp only [List.map_cons, List.nodup_cons] at hnd
    rw [foldSpikes_cons]
    rcases List.mem_cons.mp hi with rfl | hmem
    · rw [getCol_foldSpikes_of_not_mem _ _ _ hnd.1, getCol_setColumn_self]
    · rw [ih hnd.2 _ hmem, setColumn_nrows]

/-! ### Helper lemmas about the confound selector -/

theorem defaultCols_nodup : defaultCols.Nodup := by decide

theorem defaultCols_no_outlier :
    ∀ c ∈ defaultCols, containsSub c "motion_outlier" = false := by decide

theorem globalSignal_not_default : ¬ "global_signal" ∈ defaultCols := by decide

theorem globalSignal_no_outlier :
    containsSub "global_signal" "motion_outlier" = false := by decide

theorem buildConfoundColumns_none_eq (tc : List String) (g : Bool) :
    (buildConfoundColumns tc Option.none g).1
      = defaultCols.filter (fun c => decide (c ∈ tc))
        ++ tc.filter (fun c => containsSub c "motion_outlier")
        ++ (if g && decide ("global_signal" ∈ tc) then ["global_signal"]
            else []) := by
  simp only [buildConfoundColumns]
  by_cases hs : (tc.filter (fun c => containsSub c "motion_outlier")).isEmpty
  · have hnil : tc.filter (fun c => containsSub c "motion_outlier") = [] :=
      List.isEmpty_iff.mp hs
    by_cases hg : (g && decide ("global_signal" ∈ tc)) = true
    · simp [hs, hnil, hg]
    · simp [hs, hnil, hg]
  · by_cases hg : (g && decide ("global_signal" ∈ tc)) = true
    · simp [hs, hg, List.append_assoc]
    · simp [hs, hg, List.append_assoc]

theorem selectConfounds_some_eq (tc : List String) (l : List String) (g : Bool) :
    selectConfounds tc (some l) g = l.filter (fun c => decide (c ∈ tc)) := rfl

theorem selectConfounds_none_eq (tc : List String) (g : Bool) :
    selectConfounds tc Option.none g
      = defaultCols.filter (fun c => decide (c ∈ tc))
        ++ tc.filter (fun c => containsSub c "motion_outlier")
        ++ (if g = true ∧ "global_signal" ∈ tc then ["global_signal"]
            else []) := by
  unfold selectConfounds
  rw [buildConfoundColumns_none_eq, List.filter_append, List.filter_append]
  congr 1
  · congr 1
    · rw [List.filter_filter]
      simp
    · rw [List.filter_eq_self]
      intro a ha
      exact decide_eq_true (List.mem_of_mem_filter ha)
  · rcases Bool.eq_false_or_eq_true g with hg | hg
    · subst hg
      simp
    · subst hg
      by_cases hgs : "global_signal" ∈ tc
      · simp [hgs]
      · simp [hgs]

theorem mem_tc_of_mem_selectConfounds {tc : List String}
    {e : Option (List String)} {g : Bool} {c : String}
    (h : c ∈ selectConfounds tc e g) : c ∈ tc := by
  unfold selectConfounds at h
  exact of_decide_eq_true (List.mem_filter.mp h).2

theorem selectConfounds_nodup (tc : List String) (e : Option (List String))
    (g : Bool) (htc : tc.Nodup) (hex : ∀ l ∈ e, l.Nodup) :
    (selectConfounds tc e g).Nodup := by
  cases e with
  | some l => exact (hex l rfl).filter _
  | none =>
    unfold selectConfounds
    apply List.Nodup.filter
    rw [buildConfoundColumns_none_eq]
    have hbase : (defaultCols.filter (fun c => decide (c ∈ tc))).Nodup :=
      defaultCols_nodup.filter _
    have hspikes :
        (tc.filter (fun c => containsSub c "motion_outlier")).Nodup :=
      htc.filter _
    have hd1 : List.Disjoint (defaultCols.filter (fun c => decide (c ∈ tc)))
        (tc.filter (fun c => containsSub c "motion_outlier")) := by
      intro a ha hb
      have ha' := List.mem_of_mem_filter ha
      have hb' := List.of_mem_filter hb
      rw [defaultCols_no_outlier a ha'] at hb'
      cases hb'
    apply (hbase.append hspikes hd1).append
    · split <;> simp
    · intro a ha hb
      have hgs : a = "global_signal" := by
        by_cases hc : (g && decide ("global_signal" ∈ tc)) = true
        · rw [if_pos hc] at hb
          simpa using hb
        · rw [if_neg hc] at hb
          cases hb
      subst hgs
      rcases List.mem_append.mp ha with h1 | h1
      · exact globalSignal_not_default (List.mem_of_mem_filter h1)
      · have := List.of_mem_filter h1
        rw [globalSignal_no_outlier] at this
        cases this

theorem prepareConfounds_finalColumns (t : ConfoundTable)
    (e : Option (List String)) (g : Bool) :
    (prepareConfounds t e g).finalColumns
      = selectConfounds (tableColumns t) e g := rfl

theorem prepareConfounds_matrix_eq (t : ConfoundTable)
    (e : Option (List String)) (g : Bool) :
    (prepareConfounds t e g).matrix
      = (prepareConfounds t e g).finalColumns.map (fun c => getCol t c) := rfl

theorem prepareConfounds_trace_eq (t : ConfoundTable)
    (e : Option (List String)) (g : Bool) :
    (prepareConfounds t e g).trace
      = ([Event.print "Loading and preparing confounds..."]
          ++ (buildConfoundColumns (tableColumns t) e g).2
          ++ [reportHeader]
          ++ (prepareConfounds t e g).finalColumns.map
              (fun n => Event.print ("  - " ++ n)))
        ++ [Event.buildMatrix (prepareConfounds t e g).matrix] := by
  simp [prepareConfounds, List.append_assoc]

theorem noOutlier_print_mem_build (tc : List String) (g : Bool)
    (h : tc.filter (fun c => containsSub c "motion_outlier") = []) :
    Event.print "No motion_outlier columns found."
      ∈ (buildConfoundColumns tc Option.none g).2 := by
  simp only [buildConfoundColumns, h]
  split <;> simp

/-! ### Helper lemmas about the run -/

theorem runWrites_eq (self : FMRIDenoiser) (img : NiftiImage)
    (t : ConfoundTable) :
    runWrites self img t = []
    ∨ runWrites self img t = [FileWrite.nifti self.outputPath] := by
  unfold runWrites FMRIDenoiser.run
  cases hr : resolveTR self.tR img with
  | error e => left; rfl
  | ok tr => right; rfl

theorem run_ok_fields (self : FMRIDenoiser) (img : NiftiImage)
    (t : ConfoundTable) (o : RunOutcome)
    (hok : FMRIDenoiser.run self img t = Except.ok o) :
    resolveTR self.tR img = Except.ok o.usedTr
    ∧ o.lowPass = self.lowPass ∧ o.highPass = self.highPass
    ∧ o.writes = [FileWrite.nifti self.outputPath]
    ∧ o.prep = prepareConfounds t self.confoundColumns self.useGsr := by
  unfold FMRIDenoiser.run at hok
  cases hr : resolveTR self.tR img with
  | error e =>
    rw [hr] at hok
    exact Except.noConfusion hok
  | ok tr =>
    rw [hr] at hok
    injection hok with h
    subst h
    exact ⟨rfl, rfl, rfl, rfl, rfl⟩

theorem getTrFromNifti_ok_pos (img : NiftiImage) (tr : ℚ)
    (h : FMRIDenoiser.getTrFromNifti img = Except.ok tr) : 0 < tr := by
  unfold FMRIDenoiser.getTrFromNifti at h
  split at h
  · exact Except.noConfusion h
  · split at h
    · rename_i hv
      injection h with h
      subst h
      exact hv
    · exact Except.noConfusion h

/-! ### Claims -/

/-- C1: the spec requires a provenance sidecar to be written exactly
once per run at the json-extension path, but FMRIDenoiser.run performs
only the cleaned-NIfTI write and never invokes _write_json_sidecar: no
run emits any sidecar write, although writeJsonSidecar, whenever
invoked, produces exactly such a write (the method is dead code). -/
theorem run_never_writes_sidecar :
    (∀ (self : FMRIDenoiser) (img : NiftiImage) (t : ConfoundTable)
        (p : String) (r : SidecarRecord),
        ¬ FileWrite.sidecar p r ∈ runWrites self img t)
    ∧ (∀ self : FMRIDenoiser, ∃ p r,
        FMRIDenoiser.writeJsonSidecar self = FileWrite.sidecar p r) := by
  constructor
  · intro self img t p r hmem
    rcases runWrites_eq self img t with h | h <;> rw [h] at hmem <;>
      simp at hmem
  · intro self
    exact ⟨_, _, rfl⟩

/-- C3: with a non-empty explicit column list — given as a list or
parsed from a comma-separated string — the selector returns exactly the
entries of the list that exist in the table, in the given order, and the
result does not depend on the GSR flag (default/spike/GSR logic is
skipped). -/
theorem explicit_columns_override (tc : List String) (g : Bool)
    (l : List String) (hl : ¬ l = []) :
    selectConfounds tc (some l) g = l.filter (fun c => decide (c ∈ tc))
    ∧ (∀ s : String, parseColumns s = l →
        selectConfounds tc (normalizeArg (ConfoundArg.strArg s)) g
          = l.filter (fun c => decide (c ∈ tc)))
    ∧ selectConfounds tc (some l) true = selectConfounds tc (some l) false := by
  refine ⟨rfl, ?_, rfl⟩
  intro s hs
  simp only [normalizeArg, hs]
  rfl

/-- C3 witness: a concrete instance of explicit_columns_override, for
the list form and for the comma-separated string form. -/
theorem explicit_columns_override_witness :
    selectConfounds ["a", "b"] (some ["b", "x", "b"]) true
      = ["b", "x", "b"].filter (fun c => decide (c ∈ (["a", "b"] : List String)))
    ∧ selectConfounds ["a", "b"]
        (normalizeArg (ConfoundArg.strArg " b , x ,b")) true
      = ["b", "x", "b"].filter (fun c => decide (c ∈ (["a", "b"] : List String))) :=
  ⟨(explicit_columns_override ["a", "b"] true ["b", "x", "b"] (by decide)).1,
   (explicit_columns_override ["a", "b"] true ["b", "x", "b"] (by decide)).2.1
     " b , x ,b" (by decide)⟩

/-- C4: with no explicit list the selection is: the default
motion/physiological names restricted to those present, then all
motion_outlier columns in table order, then global_signal last iff GSR
is enabled and the column is present; the spec's concrete scenario
yields exactly the expected selection. -/
theorem default_selection_structure :
    (∀ (tc : List String) (g : Bool),
        selectConfounds tc Option.none g
          = defaultCols.filter (fun c => decide (c ∈ tc))
            ++ tc.filter (fun c => containsSub c "motion_outlier")
            ++ (if g = true ∧ "global_signal" ∈ tc then ["global_signal"]
                else []))
    ∧ selectConfounds
        ["trans_x", "trans_y", "white_matter", "motion_outlier_01",
          "global_signal"] Option.none true
      = ["trans_x", "trans_y", "white_matter", "motion_outlier_01",
          "global_signal"] :=
  ⟨selectConfounds_none_eq, by decide⟩

/-- C6: with no user TR, a missing, zero or negative header temporal
step (pixdim index 4) makes the resolver fail with the fatal
configuration error — exit status 1 and the message instructing the
caller to pass the TR explicitly — and it never returns a TR value. -/
theorem header_tr_invalid_fatal (img : NiftiImage)
    (h : img.pixdim[4]? = Option.none
      ∨ ∃ tr, img.pixdim[4]? = some tr ∧ tr ≤ 0) :
    resolveTR Option.none img = Except.error trFatal
    ∧ ¬ trFatal.exitCode = 0
    ∧ trFatal.message
        = "Please specify the TR manually using the --t_r <value> flag."
    ∧ ∀ tr, ¬ resolveTR Option.none img = Except.ok tr := by
  have herr : resolveTR Option.none img = Except.error trFatal := by
    rcases h with h | ⟨tr, h, htr⟩
    · simp [resolveTR, FMRIDenoiser.getTrFromNifti, h]
    · simp [resolveTR, FMRIDenoiser.getTrFromNifti, h, not_lt.mpr htr]
  refine ⟨herr, by decide, rfl, ?_⟩
  intro tr hok
  rw [herr] at hok
  exact Except.noConfusion hok

/-- C6 witness: a header whose temporal step is 0 produces the fatal
error. -/
theorem header_tr_invalid_fatal_witness :
    resolveTR Option.none ⟨[1, 1, 1, 1, 0]⟩ = Except.error trFatal :=
  (header_tr_invalid_fatal ⟨[1, 1, 1, 1, 0]⟩ (Or.inr ⟨0, rfl, le_refl 0⟩)).1

/-- C7: a positive user-supplied TR is used verbatim and the image
header is never inspected: the resolver result, and the whole run, are
unchanged under replacing the image by any other image. -/
theorem user_tr_verbatim (u : ℚ) (hu : 0 < u) (img img2 : NiftiImage) :
    resolveTR (some u) img = Except.ok u
    ∧ resolveTR (some u) img = resolveTR (some u) img2
    ∧ ∀ (self : FMRIDenoiser) (t : ConfoundTable), self.tR = some u →
        FMRIDenoiser.run self img t = FMRIDenoiser.run self img2 t := by
  refine ⟨rfl, rfl, ?_⟩
  intro self t hs
  simp only [FMRIDenoiser.run, resolveTR, hs]

/-- A one-column confound table with three rows, used as witness input. -/
def smallTable : ConfoundTable := ⟨3, [("trans_x", [1, 2, 3])]⟩

/-- A denoiser state with a user-supplied TR of 2, used as witness
input. -/
def userTrState : FMRIDenoiser :=
  { niftiPath := "bold.nii.gz", confoundsPath := "confounds.tsv",
    outputPath := "out.nii.gz", confoundColumns := Option.none,
    lowPass := initDefaultLowPass, highPass := initDefaultHighPass,
    tR := some 2, useGsr := false }

/-- C7 witness: a concrete instance of user_tr_verbatim, including the
header-independence of the whole run. -/
theorem user_tr_verbatim_witness :
    resolveTR (some 2) ⟨[1, 1, 1, 1, 0]⟩ = Except.ok 2
    ∧ FMRIDenoiser.run userTrState ⟨[1, 1, 1, 1, 0]⟩ smallTable
        = FMRIDenoiser.run userTrState ⟨[]⟩ smallTable :=
  ⟨(user_tr_verbatim 2 (by norm_num) ⟨[1, 1, 1, 1, 0]⟩ ⟨[]⟩).1,
   (user_tr_verbatim 2 (by norm_num) ⟨[1, 1, 1, 1, 0]⟩ ⟨[]⟩).2.2
     userTrState smallTable rfl⟩

/-- C8: requested confound names absent from the table are silently
dropped: the final columns are exactly the present requested names in
order, the design matrix is built from those only, and the
final-selection report appears in the trace strictly before the
matrix-construction event. -/
theorem absent_columns_skipped (t : ConfoundTable) (requested : List String)
    (g : Bool) :
    (prepareConfounds t (some requested) g).finalColumns
      = requested.filter (fun c => decide (c ∈ tableColumns t))
    ∧ (∀ c, c ∈ requested → ¬ c ∈ tableColumns t →
        ¬ c ∈ (prepareConfounds t (some requested) g).finalColumns)
    ∧ (prepareConfounds t (some requested) g).matrix
      = ((prepareConfounds t (some requested) g).finalColumns).map
          (fun c => getCol t c)
    ∧ ∃ pre, (prepareConfounds t (some requested) g).trace
        = pre
          ++ [Event.buildMatrix (prepareConfounds t (some requested) g).matrix]
        ∧ reportHeader ∈ pre := by
  refine ⟨rfl, ?_, rfl, ?_⟩
  · intro c _ hc hmem
    exact hc (mem_tc_of_mem_selectConfounds hmem)
  · refine ⟨[Event.print "Loading and preparing confounds..."]
      ++ (buildConfoundColumns (tableColumns t) (some requested) g).2
      ++ [reportHeader]
      ++ (prepareConfounds t (some requested) g).finalColumns.map
          (fun n => Event.print ("  - " ++ n)), ?_, by simp⟩
    exact prepareConfounds_trace_eq t (some requested) g

/-- C8 witness: requesting the absent column csf does not put it in the
final selection. -/
theorem absent_columns_skipped_witness :
    ¬ "csf" ∈ (prepareConfounds smallTable (some ["trans_x", "csf"])
        false).finalColumns :=
  (absent_columns_skipped smallTable ["trans_x", "csf"] false).2.1 "csf"
    (by decide) (by decide)

/-- C2 counterexample: an explicit list repeating a present name yields
a selection with duplicates — the selector does not deduplicate, so the
claim that the output never contains duplicates is false as stated. -/
theorem selector_duplicates_counterexample :
    selectConfounds ["trans_x"] (some ["trans_x", "trans_x"]) false
      = ["trans_x", "trans_x"]
    ∧ ¬ (selectConfounds ["trans_x"]
        (some ["trans_x", "trans_x"]) false).Nodup :=
  ⟨rfl, by decide⟩

/-- C2 (amended): the selection always contains only names present in
the table; it is duplicate-free provided the explicit list, when one is
given, is itself duplicate-free and the table's column names are
unique. -/
theorem selector_sound (tc : List String) (e : Option (List String))
    (g : Bool) :
    (∀ c ∈ selectConfounds tc e g, c ∈ tc)
    ∧ (tc.Nodup → (∀ l ∈ e, l.Nodup) → (selectConfounds tc e g).Nodup) :=
  ⟨fun _ hc => mem_tc_of_mem_selectConfounds hc,
   fun htc hex => selectConfounds_nodup tc e g htc hex⟩

/-- C2 witness: concrete instances of both parts of selector_sound. -/
theorem selector_sound_witness :
    "global_signal" ∈ (["trans_x", "global_signal"] : List String)
    ∧ (selectConfounds ["trans_x", "global_signal"] Option.none true).Nodup :=
  ⟨(selector_sound ["trans_x", "global_signal"] Option.none true).1
      "global_signal" (by decide),
   (selector_sound ["trans_x", "global_signal"] Option.none true).2
      (by decide) (fun l hl => absurd hl (by simp))⟩

/-- A denoiser state whose user-supplied TR is 0 (invalid). -/
def zeroTrState : FMRIDenoiser :=
  { niftiPath := "bold.nii.gz", confoundsPath := "confounds.tsv",
    outputPath := "out.nii.gz", confoundColumns := Option.none,
    lowPass := initDefaultLowPass, highPass := initDefaultHighPass,
    tR := some 0, useGsr := false }

/-- An image whose header temporal step pixdim[4] is 0 (invalid). -/
def zeroTrImage : NiftiImage := ⟨[-1, 2, 2, 2, 0, 1, 1, 1]⟩

/-- C5 counterexample: with user TR = 0 and header temporal step = 0,
the TR from every source is zero, yet the run succeeds and uses TR = 0:
the pipeline neither fails with an input error nor uses a positive
TR, contrary to the claim. -/
theorem invalid_user_tr_accepted_counterexample :
    zeroTrState.tR = some 0
    ∧ zeroTrImage.pixdim[4]? = some 0
    ∧ (FMRIDenoiser.run zeroTrState zeroTrImage smallTable).toOption.map
        RunOutcome.usedTr = some 0
    ∧ ¬ (0 : ℚ) > 0 :=
  ⟨rfl, rfl, rfl, lt_irrefl 0⟩

/-- C5 (amended): a user-supplied TR is used verbatim without any
validation, even when zero or negative; positivity is enforced only
when no user TR is supplied — then any successful run has a positive
TR. -/
theorem tr_validation_amended :
    (∀ (self : FMRIDenoiser) (img : NiftiImage) (t : ConfoundTable)
        (o : RunOutcome), self.tR = Option.none →
        FMRIDenoiser.run self img t = Except.ok o → 0 < o.usedTr)
    ∧ (∀ (self : FMRIDenoiser) (img : NiftiImage) (t : ConfoundTable)
        (u : ℚ), self.tR = some u →
        ∃ o, FMRIDenoiser.run self img t = Except.ok o ∧ o.usedTr = u) := by
  constructor
  · intro self img t o hnone hok
    have hres := (run_ok_fields self img t o hok).1
    rw [hnone] at hres
    exact getTrFromNifti_ok_pos img o.usedTr hres
  · intro self img t u hu
    refine ⟨{ usedTr := u,
              prep := prepareConfounds t self.confoundColumns self.useGsr,
              lowPass := self.lowPass, highPass := self.highPass,
              writes := [FileWrite.nifti self.outputPath] }, ?_, rfl⟩
    unfold FMRIDenoiser.run
    rw [hu]
    rfl

/-- A denoiser state with no user TR, used as witness input. -/
def headerTrState : FMRIDenoiser :=
  { niftiPath := "bold.nii.gz", confoundsPath := "confounds.tsv",
    outputPath := "out.nii.gz", confoundColumns := Option.none,
    lowPass := initDefaultLowPass, highPass := initDefaultHighPass,
    tR := Option.none, useGsr := false }

/-- An image with a valid header temporal step of 2 seconds. -/
def goodImage : NiftiImage := ⟨[1, 2, 2, 2, 2, 0, 0, 0]⟩

/-- The outcome FMRIDenoiser.run produces for headerTrState, goodImage
and smallTable. -/
def headerRunOutcome : RunOutcome :=
  { usedTr := 2,
    prep := prepareConfounds smallTable Option.none false,
    lowPass := initDefaultLowPass, highPass := initDefaultHighPass,
    writes := [FileWrite.nifti "out.nii.gz"] }

/-- A denoiser state with a user-supplied TR of -1, used as witness
input. -/
def negTrState : FMRIDenoiser :=
  { niftiPath := "bold.nii.gz", confoundsPath := "confounds.tsv",
    outputPath := "out.nii.gz", confoundColumns := Option.none,
    lowPass := initDefaultLowPass, highPass := initDefaultHighPass,
    tR := some (-1), useGsr := false }

/-- C5 witness: concrete instances of both parts of
tr_validation_amended. -/
theorem tr_validation_amended_witness :
    0 < headerRunOutcome.usedTr
    ∧ (FMRIDenoiser.run negTrState goodImage smallTable).toOption.map
        RunOutcome.usedTr = some (-1) := by
  constructor
  · exact tr_validation_amended.1 headerTrState goodImage smallTable
      headerRunOutcome rfl rfl
  · obtain ⟨o, ho, hu⟩ := tr_validation_amended.2 negTrState goodImage
      smallTable (-1) rfl
    rw [ho]
    simp [Except.toOption, hu]

/-- C10: the filter cutoffs default to 0.1 Hz (low-pass) and 0.01 Hz
(high-pass) at FMRIDenoiser.__init__, at main's argparse options, and
at denoise_voxelwise_nifti, and a run of a denoiser left at the init
defaults hands exactly these non-None cutoffs to clean_img — so
band-pass filtering is applied by default, never disabled. -/
theorem filter_cutoff_defaults :
    initDefaultLowPass = some (1/10) ∧ initDefaultHighPass = some (1/100)
    ∧ mainDefaultLowPass = 1/10 ∧ mainDefaultHighPass = 1/100
    ∧ legacyDefaultLowPass = some (1/10)
    ∧ legacyDefaultHighPass = some (1/100)
    ∧ (∀ (self : FMRIDenoiser) (img : NiftiImage) (t : ConfoundTable)
        (o : RunOutcome),
        self.lowPass = initDefaultLowPass →
        self.highPass = initDefaultHighPass →
        FMRIDenoiser.run self img t = Except.ok o →
        o.lowPass = some (1/10) ∧ o.highPass = some (1/100)
        ∧ ¬ o.lowPass = Option.none ∧ ¬ o.highPass = Option.none) := by
  refine ⟨rfl, rfl, rfl, rfl, rfl, rfl, ?_⟩
  intro self img t o hl hh hok
  obtain ⟨-, holow, hohigh, -, -⟩ := run_ok_fields self img t o hok
  rw [holow, hohigh, hl, hh]
  exact ⟨rfl, rfl, by simp [initDefaultLowPass], by simp [initDefaultHighPass]⟩

/-- C10 witness: a run of headerTrState (which is at the init defaults)
passes the default cutoffs to the engine. -/
theorem filter_cutoff_defaults_witness :
    headerRunOutcome.lowPass = some (1/10)
    ∧ headerRunOutcome.highPass = some (1/100) := by
  obtain ⟨h1, h2, -, -⟩ := filter_cutoff_defaults.2.2.2.2.2.2 headerTrState
    goodImage smallTable headerRunOutcome rfl rfl rfl
  exact ⟨h1, h2⟩

/-- In the legacy pipeline, when the table has no motion_outlier
column, the default branch injects the synthetic spike columns and
lists all their names. -/
theorem legacySpikeStep_noOutlier (t : ConfoundTable)
    (h : (tableColumns t).filter (fun c => containsSub c "motion_outlier")
      = []) :
    legacySpikeStep t
      = (foldSpikes spikeIndices t,
         defaultCols ++ spikeIndices.map spikeName) := by
  unfold legacySpikeStep
  rw [h]
  rfl

theorem legacyPrepare_none_eq (t : ConfoundTable) (g : Bool) :
    legacyPrepare t Option.none g
      = if g && decide ("global_signal" ∈ tableColumns (legacySpikeStep t).1)
        then ((legacySpikeStep t).1, (legacySpikeStep t).2 ++ ["global_signal"])
        else legacySpikeStep t := rfl

/-- In the legacy pipeline, when the table has no motion_outlier
column, the default branch injects the synthetic spike columns and
lists all their names. -/
theorem legacyPrepare_noOutlier (t : ConfoundTable) (g : Bool)
    (h : (tableColumns t).filter (fun c => containsSub c "motion_outlier")
      = []) :
    (legacyPrepare t Option.none g).1 = foldSpikes spikeIndices t
    ∧ ∃ rest, (legacyPrepare t Option.none g).2
        = defaultCols ++ spikeIndices.map spikeName ++ rest := by
  rw [legacyPrepare_none_eq]
  by_cases hc : (g && decide
      ("global_signal" ∈ tableColumns (legacySpikeStep t).1)) = true
  · rw [if_pos hc]
    constructor
    · rw [legacySpikeStep_noOutlier t h]
    · exact ⟨["global_signal"], by rw [legacySpikeStep_noOutlier t h]⟩
  · rw [if_neg hc]
    constructor
    · rw [legacySpikeStep_noOutlier t h]
    · exact ⟨[], by rw [legacySpikeStep_noOutlier t h]; simp⟩

/-- C9: when no table column name contains motion_outlier and no
explicit list is given, the canonical selector reports this and selects
no spike regressors (only present defaults plus optional global
signal), while the legacy variant injects synthetic custom_spike_i
indicator columns for the hardcoded indices 45, 46, 51, 86, 87, 108,
109, 153 — each column of length nrows, zero everywhere except a 1 at
timepoint i when i is below the row count. -/
theorem spike_handling_canonical_vs_legacy :
    (∀ (t : ConfoundTable) (g : Bool),
        (tableColumns t).filter (fun c => containsSub c "motion_outlier")
            = [] →
        (prepareConfounds t Option.none g).finalColumns
          = defaultCols.filter (fun c => decide (c ∈ tableColumns t))
            ++ (if g = true ∧ "global_signal" ∈ tableColumns t
                then ["global_signal"] else [])
        ∧ Event.print "No motion_outlier columns found."
            ∈ (prepareConfounds t Option.none g).trace)
    ∧ (∀ (t : ConfoundTable) (g : Bool),
        (tableColumns t).filter (fun c => containsSub c "motion_outlier")
            = [] →
        ∀ i ∈ spikeIndices,
          spikeName i ∈ (legacyPrepare t Option.none g).2
          ∧ getCol (legacyPrepare t Option.none g).1 (spikeName i)
              = spikeRegressor t.nrows i)
    ∧ spikeIndices = [45, 46, 51, 86, 87, 108, 109, 153]
    ∧ (∀ n i, (spikeRegressor n i).length = n)
    ∧ (∀ n i j, j < n →
        (spikeRegressor n i).get? j = some (if j = i then 1 else 0)) := by
  refine ⟨?_, ?_, rfl, ?_, ?_⟩
  · intro t g h
    constructor
    · rw [prepareConfounds_finalColumns, selectConfounds_none_eq, h]
      simp
    · rw [prepareConfounds_trace_eq]
      have hmem := noOutlier_print_mem_build (tableColumns t) g h
      simp only [List.mem_append, List.mem_singleton]
      exact Or.inl (Or.inl (Or.inl (Or.inr hmem)))
  · intro t g h i hi
    obtain ⟨h1, rest, h2⟩ := legacyPrepare_noOutlier t g h
    constructor
    · rw [h2]
      exact List.mem_append_left _
        (List.mem_append_right _ (List.mem_map_of_mem spikeName hi))
    · rw [h1]
      exact getCol_foldSpikes_of_mem spikeIndices (by decide) t i hi
  · intro n i
    simp [spikeRegressor]
  · intro n i j hj
    simp [spikeRegressor, List.get?_eq_getElem?, List.getElem?_map,
      List.getElem?_range hj]

/-- A two-row confound table without motion_outlier columns, used as
witness input. -/
def noOutlierTable : ConfoundTable := ⟨2, [("trans_x", [1, 2])]⟩

/-- C9 witness: concrete instances of the canonical and the legacy
parts of spike_handling_canonical_vs_legacy. -/
theorem spike_handling_canonical_vs_legacy_witness :
    Event.print "No motion_outlier columns found."
      ∈ (prepareConfounds noOutlierTable Option.none false).trace
    ∧ getCol (legacyPrepare noOutlierTable Option.none true).1 (spikeName 45)
        = spikeRegressor noOutlierTable.nrows 45 :=
  ⟨(spike_handling_canonical_vs_legacy.1 noOutlierTable false (by decide)).2,
   ((spike_handling_canonical_vs_legacy.2.1 noOutlierTable true (by decide))
      45 (by decide)).2⟩
